import Mathlib

/-!
Shallow embedding of the `version` Go package (nathangreene3/version).

Modelling conventions:
* Go strings are modelled as `List Char` (`Str`).  Go compares strings by
  their UTF-8 bytes; since UTF-8 byte order coincides with code-point order
  and is prefix-compatible per character, lexicographic order on the list of
  characters (by `Char.toNat`) is exactly Go's string order, and slicing or
  splitting at ASCII characters coincides with Go's byte-level slicing.
* Go `uint` is the 64-bit platform word: values are `Nat`, and arithmetic
  performed by the Go code (`v.major+1` in `Bump`) is taken modulo
  `uintMod = 2 ^ 64`.  `strconv.IntSize` is likewise 64.
* `regexp.MatchString(versionPattern, s)` is embedded as a Brzozowski
  derivative matcher over the abstract syntax of the fixed pattern
  `^v(0|[1-9][0-9]*)(.(0|[1-9][0-9]*)){2}(-([a-zA-Z0-9]+)(.[a-zA-Z0-9]+)*)?$`.
  The pattern is anchored on both ends, so `MatchString` is full-string
  matching; the pattern is a compile-time constant and valid, so the error
  result of `MatchString` is always `nil`.  Note the dots in the pattern are
  NOT escaped: in Go's regexp syntax an unescaped `.` matches any character
  except newline, which the class `isDotC` reproduces faithfully.
* Functions returning Go's `(T, error)` pairs return `T × Option GoErr`
  (`none` = `nil` error).  `Parse` can additionally panic (index out of
  range), so it returns `PanicOr (Version × Option GoErr)`.
* Go functional options (`Option func(v *Version)`) are modelled as
  `VOption := Version → Version`, applied in order by a left fold.
-/

abbrev Str := List Char

/-- Regular expressions over characters, the abstract syntax of the constant
`versionPattern` from version.go. -/
inductive RE where
  | emp : RE
  | eps : RE
  | cls : (Char → Bool) → RE
  | cat : RE → RE → RE
  | alt : RE → RE → RE
  | star : RE → RE

/-- Whether a regular expression accepts the empty word. -/
def RE.nullable : RE → Bool
  | .emp => false
  | .eps => true
  | .cls _ => false
  | .cat a b => a.nullable && b.nullable
  | .alt a b => a.nullable || b.nullable
  | .star _ => true

/-- Brzozowski derivative of a regular expression by one character. -/
def RE.deriv : RE → Char → RE
  | .emp, _ => .emp
  | .eps, _ => .emp
  | .cls p, c => if p c then .eps else .emp
  | .cat a b, c =>
      if a.nullable then .alt (.cat (a.deriv c) b) (b.deriv c)
      else .cat (a.deriv c) b
  | .alt a b, c => .alt (a.deriv c) (b.deriv c)
  | .star a, c => .cat (a.deriv c) (.star a)

/-- Full-string matching by iterated derivatives. -/
def reMatch (r : RE) (s : Str) : Bool :=
  (s.foldl RE.deriv r).nullable

/-- The language of a regular expression.  In the `star` case the pieces are
required to be nonempty, which does not change the language. -/
def RE.Lang : RE → Str → Prop
  | .emp, _ => False
  | .eps, w => w = []
  | .cls p, w => ∃ c, w = [c] ∧ p c = true
  | .cat a b, w => ∃ u v, w = u ++ v ∧ a.Lang u ∧ b.Lang v
  | .alt a b, w => a.Lang w ∨ b.Lang w
  | .star a, w => ∃ ws : List Str, w = ws.flatten ∧ ∀ u ∈ ws, u ≠ [] ∧ a.Lang u

/-- Character class `[0-9]`. -/
def isDigitC (c : Char) : Bool := 48 ≤ c.toNat && c.toNat ≤ 57

/-- Character class `[1-9]`. -/
def isNonzeroDigitC (c : Char) : Bool := 49 ≤ c.toNat && c.toNat ≤ 57

/-- Character class `[a-zA-Z0-9]`. -/
def isAlnumC (c : Char) : Bool :=
  (97 ≤ c.toNat && c.toNat ≤ 122) || (65 ≤ c.toNat && c.toNat ≤ 90) || isDigitC c

/-- The unescaped `.` of Go's regexp syntax: any character except newline. -/
def isDotC (c : Char) : Bool := c.toNat != 10

/-- A single literal character. -/
def chr (c : Char) : RE := .cls (fun x => x == c)

/-- The sub-pattern `(0|[1-9][0-9]*)`. -/
def numRE : RE := .alt (chr '0') (.cat (.cls isNonzeroDigitC) (.star (.cls isDigitC)))

/-- The sub-pattern `(.(0|[1-9][0-9]*))` (dot unescaped). -/
def dotNumRE : RE := .cat (.cls isDotC) numRE

/-- The sub-pattern `[a-zA-Z0-9]+`. -/
def alnumSegRE : RE := .cat (.cls isAlnumC) (.star (.cls isAlnumC))

/-- The sub-pattern `(-([a-zA-Z0-9]+)(.[a-zA-Z0-9]+)*)` (dot unescaped). -/
def preRE : RE :=
  .cat (chr '-') (.cat alnumSegRE (.star (.cat (.cls isDotC) alnumSegRE)))

/-- versionPattern from version.go:
`^v(0|[1-9][0-9]*)(.(0|[1-9][0-9]*)){2}(-([a-zA-Z0-9]+)(.[a-zA-Z0-9]+)*)?$`
as abstract syntax.  `{2}` is two copies, `?` is alternation with `eps`, the
anchors `^ $` are the full-string matching discipline of `reMatch`. -/
def versionRE : RE :=
  .cat (chr 'v')
    (.cat numRE
      (.cat (.cat dotNumRE dotNumRE)
        (.alt .eps preRE)))

/-- IsValid from version.go.  `regexp.MatchString` on the constant, valid,
anchored pattern: the error result is always nil, so `ok && err == nil`
reduces to whether the whole string matches. -/
def IsValid (version : Str) : Bool := reMatch versionRE version

/-- The Go `uint` type of the reference platform is 64 bits wide; Go unsigned
arithmetic is modular in that width. -/
def uintMod : Nat := 2 ^ 64

/-- The struct Version from version.go.  Field values are the mathematical
values of the Go `uint` fields. -/
structure Version where
  major : Nat
  minor : Nat
  patch : Nat
  preRelease : Str
deriving DecidableEq

/-- The little-endian decimal digits of `n` (empty for 0), computed with
explicit fuel so that the recursion is structural. -/
def natDigitsRev (fuel n : Nat) : List Nat :=
  match fuel with
  | 0 => []
  | f + 1 => if n = 0 then [] else n % 10 :: natDigitsRev f (n / 10)

/-- The decimal rendering `fmt.Sprintf("%d", n)` of a non-negative integer. -/
def renderNat (n : Nat) : Str :=
  if n = 0 then ['0'] else ((natDigitsRev n n).map Nat.digitChar).reverse

/-- The method String from version.go:
`fmt.Sprintf("v%d.%d.%d", ...)`, with `-<preRelease>` appended when the
pre-release is nonempty. -/
def Version.string (v : Version) : Str :=
  if v.preRelease = [] then
    'v' :: (renderNat v.major ++ '.' :: renderNat v.minor ++ '.' :: renderNat v.patch)
  else
    'v' :: (renderNat v.major ++ '.' :: renderNat v.minor ++ '.' :: renderNat v.patch
      ++ '-' :: v.preRelease)

/-- The kind of a `strconv.NumError`: `strconv.ErrSyntax` or
`strconv.ErrRange`. -/
inductive NumErrKind where
  | errSyn : NumErrKind
  | errRange : NumErrKind
deriving DecidableEq

/-- Go error values reachable in this package, identified by their observable
content: the two sentinels from errors.go, `strconv.NumError` values (whose
`Func` field is always "ParseUint" here), and wrapping via
`fmt.Errorf("<ctx>: %w", err)` with context prefix `ctx`. -/
inductive GoErr where
  | invalidVersion : GoErr
  | invalidField : GoErr
  | numError : Str → NumErrKind → GoErr
  | wrap : Str → GoErr → GoErr
deriving DecidableEq

/-- The context string `"strconv.ParseUint"` used by Parse's wraps. -/
def ctxParseUint : Str :=
  ['s', 't', 'r', 'c', 'o', 'n', 'v', '.', 'P', 'a', 'r', 's', 'e', 'U', 'i', 'n', 't']

/-- The context string `"New"` used by Parse's and Bump's wraps. -/
def ctxNew : Str := ['N', 'e', 'w']

/-- Go's `errors.Is`: compare with the target at each level of the unwrap
chain.  Sentinel identity is constructor identity in this model. -/
def errorsIs : GoErr → GoErr → Bool
  | .wrap c inner, t => if GoErr.wrap c inner = t then true else errorsIs inner t
  | e, t => if e = t then true else false

/-- Result of a Go call that can also panic (uncatchable fault). -/
inductive PanicOr (α : Type) where
  | panicked : PanicOr α
  | ret : α → PanicOr α
deriving DecidableEq

/-- `strconv.ParseUint(s, 10, strconv.IntSize)` with `IntSize = 64`:
a nonempty all-digit string is converted; empty or non-digit input is a
syntax error, a value not fitting in 64 bits is a range error.  The error is
a `strconv.NumError` carrying the input string. -/
def parseUint (s : Str) : Except GoErr Nat :=
  if s = [] then .error (.numError s .errSyn)
  else if s.all isDigitC then
    if s.foldl (fun a c => a * 10 + (c.toNat - 48)) 0 < uintMod then
      .ok (s.foldl (fun a c => a * 10 + (c.toNat - 48)) 0)
    else .error (.numError s .errRange)
  else .error (.numError s .errSyn)

/-- `strings.Split(s, sep)` for a one-character separator. -/
def splitOn (sep : Char) : Str → List Str
  | [] => [[]]
  | c :: rest =>
    match splitOn sep rest with
    | [] => [[]]
    | t :: ts => if c = sep then [] :: t :: ts else (c :: t) :: ts

/-- `strings.Index(s, sub)` for a one-character substring, as an optional
index rather than `-1`. -/
def indexOf (c : Char) : Str → Option Nat
  | [] => none
  | x :: rest =>
    if x = c then some 0
    else match indexOf c rest with
      | none => none
      | some i => some (i + 1)

/-- The type Option from option.go (`func(v *Version)`), modelled as a
function on versions.  Named VOption to avoid the Lean core `Option`. -/
def VOption : Type := Version → Version

/-- PreRelease from option.go: an option that sets the pre-release field. -/
def PreRelease (s : Str) : VOption := fun v => { v with preRelease := s }

/-- Application of the variadic options of New in order (`opts[i](&v)`). -/
def applyOpts (opts : List VOption) (v : Version) : Version :=
  opts.foldl (fun v o => o v) v

/-- New from version.go: build the candidate, apply the options in order,
and validate the rendered string; on failure return the zero Version and
ErrInvalidVersion. -/
def New (major minor patch : Nat) (opts : List VOption) : Version × Option GoErr :=
  let v := applyOpts opts { major := major, minor := minor, patch := patch, preRelease := [] }
  if IsValid v.string then (v, none) else (⟨0, 0, 0, []⟩, some .invalidVersion)

/-- Parse from version.go.  The field accesses `ss[1]` and `ss[2]` are not
guarded in the source; the cases in which they are out of range are modelled
as `.panicked` (Go: runtime index-out-of-range panic).  `ss[0]` always
exists because `strings.Split` never returns an empty slice. -/
def Parse (s : Str) : PanicOr (Version × Option GoErr) :=
  if IsValid s then
    let fields : Str :=
      match indexOf '-' s with
      | none => s.drop 1
      | some i => (s.take i).drop 1
    let preRel : Str :=
      match indexOf '-' s with
      | none => []
      | some i => s.drop (i + 1)
    match splitOn '.' fields with
    | [] => .panicked
    | s0 :: rest =>
      match parseUint s0 with
      | .error e => .ret (⟨0, 0, 0, []⟩, some (.wrap ctxParseUint e))
      | .ok major =>
        match rest with
        | [] => .panicked
        | s1 :: rest2 =>
          match parseUint s1 with
          | .error e => .ret (⟨0, 0, 0, []⟩, some (.wrap ctxParseUint e))
          | .ok minor =>
            match rest2 with
            | [] => .panicked
            | s2 :: _ =>
              match parseUint s2 with
              | .error e => .ret (⟨0, 0, 0, []⟩, some (.wrap ctxParseUint e))
              | .ok patch =>
                match New major minor patch [PreRelease preRel] with
                | (_, some e) => .ret (⟨0, 0, 0, []⟩, some (.wrap ctxNew e))
                | (v, none) => .ret (v, none)
  else .ret (⟨0, 0, 0, []⟩, some .invalidVersion)

/-- The type Field from field.go (`type Field int`); named VField because
Lean already uses `Field` for the algebraic structure. -/
abbrev VField : Type := Int

/-- Field constant Patch (`1 + iota` at position 0). -/
def Patch : VField := 1

/-- Field constant Minor. -/
def Minor : VField := 2

/-- Field constant Major. -/
def Major : VField := 3

/-- Bump from version.go.  The `+1` is Go `uint` addition, hence modular in
the word width; errors from New are wrapped with the "New" context. -/
def Version.bump (v : Version) (f : VField) (opts : List VOption) :
    Version × Option GoErr :=
  if f = Major then
    match New ((v.major + 1) % uintMod) 0 0 opts with
    | (_, some e) => (⟨0, 0, 0, []⟩, some (.wrap ctxNew e))
    | (v1, none) => (v1, none)
  else if f = Minor then
    match New v.major ((v.minor + 1) % uintMod) 0 opts with
    | (_, some e) => (⟨0, 0, 0, []⟩, some (.wrap ctxNew e))
    | (v1, none) => (v1, none)
  else if f = Patch then
    match New v.major v.minor ((v.patch + 1) % uintMod) opts with
    | (_, some e) => (⟨0, 0, 0, []⟩, some (.wrap ctxNew e))
    | (v1, none) => (v1, none)
  else (⟨0, 0, 0, []⟩, some .invalidField)

/-- Go's `<` on strings: lexicographic comparison of the byte sequences,
which on the character model is lexicographic comparison by code point. -/
def strLt : Str → Str → Bool
  | _, [] => false
  | [], _ :: _ => true
  | a :: as, b :: bs => a.toNat < b.toNat || (a.toNat = b.toNat && strLt as bs)

/-- Compare from version.go: the switch over major, minor, patch and
preRelease in source order. -/
def Version.compare (v v1 : Version) : Int :=
  if v.major < v1.major then -1
  else if v1.major < v.major then 1
  else if v.minor < v1.minor then -1
  else if v1.minor < v.minor then 1
  else if v.patch < v1.patch then -1
  else if v1.patch < v.patch then 1
  else if strLt v.preRelease v1.preRelease then -1
  else if strLt v1.preRelease v.preRelease then 1
  else 0

/-- The accessor Major from version.go. -/
def Version.Major (v : Version) : Nat := v.major

/-- The accessor Minor from version.go. -/
def Version.Minor (v : Version) : Nat := v.minor

/-- The accessor Patch from version.go. -/
def Version.Patch (v : Version) : Nat := v.patch

/-- The accessor PreRelease from version.go. -/
def Version.PreRelease (v : Version) : Str := v.preRelease


/-- The common shape of Bump's three switch arms: pass a success through and
wrap a failure from New in the "New" context (`fmt.Errorf("New: %w", err)`),
returning the zero Version. -/
def wrapNew : Version × Option GoErr → Version × Option GoErr
  | (v1, none) => (v1, none)
  | (_, some e) => (⟨0, 0, 0, []⟩, some (.wrap ctxNew e))

/-- Whether an error is a wrap carrying the "New" context. -/
def isWrapNew : GoErr → Bool
  | .wrap c _ => decide (c = ctxNew)
  | _ => false

/-- The decimal digits of `2 ^ 64`, the smallest value rejected by
`strconv.ParseUint` with a 64-bit size. -/
def overflowDigits : Str :=
  ['1', '8', '4', '4', '6', '7', '4', '4', '0', '7', '3', '7', '0', '9', '5',
   '5', '1', '6', '1', '6']

/-- The string `v18446744073709551616.0.0`: structurally a version whose
major field overflows a 64-bit unsigned integer. -/
def overflowMajorStr : Str := 'v' :: (overflowDigits ++ ['.', '0', '.', '0'])

/-- The string `v0.18446744073709551616.0`: structurally a version whose
minor field overflows a 64-bit unsigned integer. -/
def overflowMinorStr : Str := 'v' :: '0' :: '.' :: (overflowDigits ++ ['.', '0'])

/-! ### Soundness of the derivative matcher (the direction: language
membership implies a successful match). -/

theorem char_toNat_inj {a b : Char} (h : a.toNat = b.toNat) : a = b :=
  Char.eq_of_val_eq (UInt32.eq_of_toBitVec_eq (by
    simp only [Char.toNat, UInt32.toNat] at h
    exact BitVec.eq_of_toNat_eq h))

theorem RE.nullable_of_lang_nil {r : RE} (h : r.Lang []) : r.nullable = true := by
  induction r with
  | emp => exact absurd h id
  | eps => rfl
  | cls p => obtain ⟨c, hc, -⟩ := h; exact absurd hc (by simp)
  | cat a b iha ihb =>
      obtain ⟨u, v, huv, hu, hv⟩ := h
      obtain ⟨rfl, rfl⟩ := List.append_eq_nil.mp huv.symm
      simp [RE.nullable, iha hu, ihb hv]
  | alt a b iha ihb =>
      cases h with
      | inl h => simp [RE.nullable, iha h]
      | inr h => simp [RE.nullable, ihb h]
  | star a _ => rfl

theorem RE.lang_deriv {r : RE} {c : Char} {w : Str} (h : r.Lang (c :: w)) :
    (r.deriv c).Lang w := by
  induction r generalizing w with
  | emp => exact absurd h id
  | eps => exact absurd h (by simp [RE.Lang])
  | cls p =>
      obtain ⟨c', hc, hp⟩ := h
      obtain ⟨rfl, rfl⟩ : c = c' ∧ w = [] := by
        constructor <;> [exact (List.cons_eq_cons.mp hc).1; exact (List.cons_eq_cons.mp hc).2]
      simp only [RE.deriv, hp, if_true]
      rfl
  | cat a b iha ihb =>
      obtain ⟨u, v, huv, hu, hv⟩ := h
      cases u with
      | nil =>
          have hn : a.nullable = true := RE.nullable_of_lang_nil hu
          simp only [List.nil_append] at huv
          subst huv
          simp only [RE.deriv, hn, if_true]
          exact Or.inr (ihb hv)
      | cons c' u' =>
          simp only [List.cons_append, List.cons_eq_cons] at huv
          obtain ⟨rfl, rfl⟩ := huv
          have hau : (a.deriv c).Lang u' := iha hu
          by_cases hn : a.nullable = true
          · simp only [RE.deriv, hn, if_true]
            exact Or.inl ⟨u', v, rfl, hau, hv⟩
          · simp only [RE.deriv, hn, if_false]
            exact ⟨u', v, rfl, hau, hv⟩
  | alt a b iha ihb =>
      cases h with
      | inl h => exact Or.inl (iha h)
      | inr h => exact Or.inr (ihb h)
  | star a iha =>
      obtain ⟨ws, hw, hall⟩ := h
      cases ws with
      | nil => exact absurd hw (by simp)
      | cons u0 rest =>
          obtain ⟨hne, hu0⟩ := hall u0 (by simp)
          cases u0 with
          | nil => exact absurd rfl hne
          | cons c0 u0' =>
              simp only [List.flatten_cons, List.cons_append, List.cons_eq_cons] at hw
              obtain ⟨rfl, rfl⟩ := hw
              exact ⟨u0', rest.flatten, rfl, iha hu0,
                ⟨rest, rfl, fun u hu => hall u (by simp [hu])⟩⟩

theorem reMatch_of_lang : ∀ {w : Str} {r : RE}, r.Lang w → reMatch r w = true := by
  intro w
  induction w with
  | nil => intro r h; exact RE.nullable_of_lang_nil h
  | cons c w ih => intro r h; exact ih (RE.lang_deriv h)

theorem flatten_map_singleton (s : Str) :
    (s.map (fun c => [c])).flatten = s := by
  induction s with
  | nil => rfl
  | cons c cs ih => simp [ih]

theorem lang_star_cls {p : Char → Bool} {s : Str} (h : ∀ c ∈ s, p c = true) :
    (RE.star (.cls p)).Lang s := by
  refine ⟨s.map (fun c => [c]), (flatten_map_singleton s).symm, ?_⟩
  intro u hu
  simp only [List.mem_map] at hu
  obtain ⟨c, hc, rfl⟩ := hu
  exact ⟨by simp, ⟨c, rfl, h c hc⟩⟩

/-! ### Facts about the decimal rendering. -/

theorem natDigitsRev_all_lt (fuel : Nat) : ∀ n, ∀ d ∈ natDigitsRev fuel n, d < 10 := by
  induction fuel with
  | zero => intro n d hd; exact absurd hd (by simp [natDigitsRev])
  | succ f ih =>
      intro n d hd
      by_cases hn : n = 0
      · simp [natDigitsRev, hn] at hd
      · simp only [natDigitsRev, hn, if_false, List.mem_cons] at hd
        cases hd with
        | inl h => subst h; exact Nat.mod_lt _ (by norm_num)
        | inr h => exact ih _ d h

theorem natDigitsRev_zero (fuel : Nat) : natDigitsRev fuel 0 = [] := by
  cases fuel <;> simp [natDigitsRev]

theorem natDigitsRev_last (fuel : Nat) :
    ∀ n, n ≠ 0 → n ≤ fuel →
      ∃ l d, natDigitsRev fuel n = l ++ [d] ∧ 0 < d ∧ d < 10 := by
  induction fuel with
  | zero => intro n hn hf; omega
  | succ f ih =>
      intro n hn hf
      simp only [natDigitsRev, hn, if_false]
      by_cases h10 : n / 10 = 0
      · refine ⟨[], n % 10, by simp [h10, natDigitsRev_zero], ?_, Nat.mod_lt _ (by norm_num)⟩
        have : n < 10 := by omega
        omega
      · obtain ⟨l, d, hl, hd, hd10⟩ := ih (n / 10) h10 (by omega)
        exact ⟨n % 10 :: l, d, by simp [hl], hd, hd10⟩

theorem digitChar_toNat {d : Nat} (h : d < 10) : (Nat.digitChar d).toNat = 48 + d := by
  interval_cases d <;> decide

theorem isDigitC_digitChar {d : Nat} (h : d < 10) : isDigitC (Nat.digitChar d) = true := by
  simp only [isDigitC, digitChar_toNat h, Bool.and_eq_true, decide_eq_true_eq]
  omega

theorem renderNat_ne_nil (n : Nat) : renderNat n ≠ [] := by
  unfold renderNat
  split
  · simp
  · intro h
    rw [List.reverse_eq_nil_iff, List.map_eq_nil_iff] at h
    have := natDigitsRev_last n n (by assumption) (Nat.le_refl n)
    obtain ⟨l, d, hl, -, -⟩ := this
    simp [hl] at h

theorem renderNat_all_digit (n : Nat) : ∀ c ∈ renderNat n, isDigitC c = true := by
  unfold renderNat
  split
  · intro c hc; simp only [List.mem_singleton] at hc; subst hc; decide
  · intro c hc
    simp only [List.mem_reverse, List.mem_map] at hc
    obtain ⟨d, hd, rfl⟩ := hc
    exact isDigitC_digitChar (natDigitsRev_all_lt n n d hd)

theorem renderNat_head_nonzero {n : Nat} (h : n ≠ 0) :
    ∃ c cs, renderNat n = c :: cs ∧ isNonzeroDigitC c = true := by
  obtain ⟨l, d, hl, hd, hd10⟩ := natDigitsRev_last n n h (Nat.le_refl n)
  refine ⟨Nat.digitChar d, (l.map Nat.digitChar).reverse, ?_, ?_⟩
  · simp [renderNat, h, hl]
  · simp only [isNonzeroDigitC, digitChar_toNat hd10, Bool.and_eq_true, decide_eq_true_eq]
    omega

theorem foldl_digits (fuel : Nat) :
    ∀ n a, n ≤ fuel →
      List.foldl (fun a c => a * 10 + (c.toNat - 48)) a
          (((natDigitsRev fuel n).map Nat.digitChar).reverse)
        = a * 10 ^ (natDigitsRev fuel n).length + n := by
  induction fuel with
  | zero => intro n a h; simp [natDigitsRev]; omega
  | succ f ih =>
      intro n a h
      by_cases hn : n = 0
      · simp [natDigitsRev, hn]
      · have hrec : n / 10 ≤ f := by
          have := Nat.div_lt_self (Nat.pos_of_ne_zero hn) (by norm_num : 1 < 10)
          omega
        simp only [natDigitsRev, hn, if_false, List.map_cons, List.reverse_cons,
          List.foldl_append, List.length_cons]
        rw [ih (n / 10) a hrec]
        simp only [List.foldl_cons, List.foldl_nil]
        rw [digitChar_toNat (Nat.mod_lt _ (by norm_num))]
        have hmod : 48 + n % 10 - 48 = n % 10 := by omega
        rw [hmod]
        have hdm : 10 * (n / 10) + n % 10 = n := Nat.div_add_mod n 10
        ring_nf
        omega

theorem parseUintVal_renderNat (n : Nat) :
    List.foldl (fun a c => a * 10 + (c.toNat - 48)) 0 (renderNat n) = n := by
  unfold renderNat
  split
  · subst n; decide
  · rw [foldl_digits n n 0 (Nat.le_refl n)]
    simp

theorem parseUint_renderNat {n : Nat} (h : n < uintMod) :
    parseUint (renderNat n) = .ok n := by
  unfold parseUint
  rw [if_neg (renderNat_ne_nil n)]
  have hall : (renderNat n).all isDigitC = true :=
    List.all_eq_true.mpr (renderNat_all_digit n)
  rw [if_pos hall, parseUintVal_renderNat n, if_pos h]

/-! ### The rendered string of any version without pre-release matches the
pattern. -/

theorem lang_num_renderNat (n : Nat) : numRE.Lang (renderNat n) := by
  by_cases hn : n = 0
  · subst hn
    exact Or.inl ⟨'0', rfl, by decide⟩
  · obtain ⟨c, cs, hc, hcnz⟩ := renderNat_head_nonzero hn
    refine Or.inr ⟨[c], cs, by simp [hc], ⟨c, rfl, hcnz⟩, lang_star_cls ?_⟩
    intro x hx
    exact renderNat_all_digit n x (by simp [hc, hx])

theorem lang_version_nopre (M m p : Nat) :
    versionRE.Lang ('v' :: (renderNat M ++ '.' :: renderNat m ++ '.' :: renderNat p)) := by
  refine ⟨['v'], renderNat M ++ '.' :: renderNat m ++ '.' :: renderNat p, by simp,
    ⟨'v', rfl, by decide⟩, ?_⟩
  refine ⟨renderNat M, ('.' :: renderNat m) ++ ('.' :: renderNat p), by simp,
    lang_num_renderNat M, ?_⟩
  refine ⟨('.' :: renderNat m) ++ ('.' :: renderNat p), [], by simp, ?_, Or.inl rfl⟩
  refine ⟨'.' :: renderNat m, '.' :: renderNat p, rfl, ?_, ?_⟩
  · exact ⟨['.'], renderNat m, rfl, ⟨'.', rfl, by decide⟩, lang_num_renderNat m⟩
  · exact ⟨['.'], renderNat p, rfl, ⟨'.', rfl, by decide⟩, lang_num_renderNat p⟩

theorem isValid_string_nopre (M m p : Nat) :
    IsValid (Version.string ⟨M, m, p, []⟩) = true := by
  have h : Version.string ⟨M, m, p, []⟩
      = 'v' :: (renderNat M ++ '.' :: renderNat m ++ '.' :: renderNat p) := by
    simp [Version.string]
  rw [h]
  exact reMatch_of_lang (lang_version_nopre M m p)

/-! ### Splitting and searching lemmas. -/

theorem splitOn_ne_nil (sep : Char) (s : Str) : splitOn sep s ≠ [] := by
  cases s with
  | nil => simp [splitOn]
  | cons c rest =>
      simp only [splitOn]
      split
      · simp
      · split <;> simp

theorem splitOn_not_mem {sep : Char} {s : Str} (h : sep ∉ s) : splitOn sep s = [s] := by
  induction s with
  | nil => rfl
  | cons c rest ih =>
      have hc : c ≠ sep := fun hc => h (by simp [hc])
      have hrest : sep ∉ rest := fun hr => h (by simp [hr])
      simp only [splitOn, ih hrest, if_neg hc]

theorem splitOn_append {sep : Char} {u r : Str} (h : sep ∉ u) :
    splitOn sep (u ++ sep :: r) = u :: splitOn sep r := by
  induction u with
  | nil =>
      simp only [List.nil_append, splitOn]
      obtain ⟨t, ts, ht⟩ : ∃ t ts, splitOn sep r = t :: ts := by
        cases hx : splitOn sep r with
        | nil => exact absurd hx (splitOn_ne_nil sep r)
        | cons t ts => exact ⟨t, ts, rfl⟩
      rw [ht]
      simp [ht]
  | cons c u' ih =>
      have hc : c ≠ sep := fun hc => h (by simp [hc])
      have hu' : sep ∉ u' := fun hr => h (by simp [hr])
      show splitOn sep (c :: (u' ++ sep :: r)) = (c :: u') :: splitOn sep r
      simp only [splitOn, ih hu', if_neg hc]

theorem indexOf_not_mem {c : Char} {s : Str} (h : c ∉ s) : indexOf c s = none := by
  induction s with
  | nil => rfl
  | cons x rest ih =>
      have hx : x ≠ c := fun hx => h (by simp [hx])
      simp only [indexOf, if_neg hx, ih (fun hr => h (by simp [hr]))]

theorem indexOf_append_cons {c : Char} {u r : Str} (h : c ∉ u) :
    indexOf c (u ++ c :: r) = some u.length := by
  induction u with
  | nil => simp [indexOf]
  | cons x u' ih =>
      have hx : x ≠ c := fun hx => h (by simp [hx])
      show indexOf c (x :: (u' ++ c :: r)) = some (x :: u').length
      simp only [indexOf, if_neg hx, ih (fun hr => h (by simp [hr])), List.length_cons]

/-! ### Parse recovers a version from its own rendering. -/

theorem digit_ne_dash {c : Char} (h : isDigitC c = true) : c ≠ '-' := by
  intro hc; rw [hc] at h; exact absurd h (by decide)

theorem digit_ne_dot {c : Char} (h : isDigitC c = true) : c ≠ '.' := by
  intro hc; rw [hc] at h; exact absurd h (by decide)

theorem dash_not_mem_render (n : Nat) : '-' ∉ renderNat n := by
  intro h
  exact absurd rfl (digit_ne_dash (renderNat_all_digit n '-' h))

theorem dot_not_mem_render (n : Nat) : '.' ∉ renderNat n := by
  intro h
  exact absurd rfl (digit_ne_dot (renderNat_all_digit n '.' h))

theorem splitOn_fields (M m p : Nat) :
    splitOn '.' ((renderNat M ++ '.' :: renderNat m) ++ '.' :: renderNat p)
      = [renderNat M, renderNat m, renderNat p] := by
  rw [List.append_assoc]
  rw [show ('.' :: renderNat m) ++ '.' :: renderNat p
      = '.' :: (renderNat m ++ '.' :: renderNat p) from rfl]
  rw [splitOn_append (dot_not_mem_render M)]
  rw [splitOn_append (dot_not_mem_render m)]
  rw [splitOn_not_mem (dot_not_mem_render p)]

theorem dash_not_mem_head (M m p : Nat) :
    '-' ∉ 'v' :: ((renderNat M ++ '.' :: renderNat m) ++ '.' :: renderNat p) := by
  intro h
  simp only [List.mem_cons, List.mem_append] at h
  rcases h with h | (h | h | h) | h | h
  · exact absurd h.symm (by decide)
  · exact dash_not_mem_render M h
  · exact absurd h.symm (by decide)
  · exact dash_not_mem_render m h
  · exact absurd h.symm (by decide)
  · exact dash_not_mem_render p h

theorem parse_string_of_isValid {v : Version}
    (hM : v.major < uintMod) (hm : v.minor < uintMod) (hp : v.patch < uintMod)
    (hIV : IsValid v.string = true) :
    Parse v.string = .ret (v, none) := by
  obtain ⟨M, m, p, pre⟩ := v
  simp only at hM hm hp
  cases pre with
  | nil =>
      have hs : Version.string ⟨M, m, p, []⟩
          = 'v' :: ((renderNat M ++ '.' :: renderNat m) ++ '.' :: renderNat p) := rfl
      rw [hs] at hIV ⊢
      have hidx : indexOf '-'
          ('v' :: ((renderNat M ++ '.' :: renderNat m) ++ '.' :: renderNat p)) = none :=
        indexOf_not_mem (dash_not_mem_head M m p)
      have hnew : New M m p [PreRelease []] = (⟨M, m, p, []⟩, none) := by
        simp only [New, applyOpts, List.foldl_cons, List.foldl_nil, PreRelease]
        rw [if_pos]
        exact hIV
      simp only [Parse, hIV, if_true, hidx, List.drop_succ_cons, List.drop_zero,
        splitOn_fields, parseUint_renderNat hM, parseUint_renderNat hm,
        parseUint_renderNat hp, hnew]
  | cons c0 pre' =>
      have hs : Version.string ⟨M, m, p, c0 :: pre'⟩
          = ('v' :: ((renderNat M ++ '.' :: renderNat m) ++ '.' :: renderNat p))
              ++ '-' :: (c0 :: pre') := by
        simp [Version.string]
      rw [hs] at hIV ⊢
      have hidx : indexOf '-'
          (('v' :: ((renderNat M ++ '.' :: renderNat m) ++ '.' :: renderNat p))
            ++ '-' :: (c0 :: pre'))
          = some ('v' :: ((renderNat M ++ '.' :: renderNat m) ++ '.' :: renderNat p)).length :=
        indexOf_append_cons (dash_not_mem_head M m p)
      have hfields : ((('v' :: ((renderNat M ++ '.' :: renderNat m) ++ '.' :: renderNat p))
            ++ '-' :: (c0 :: pre')).take
            ('v' :: ((renderNat M ++ '.' :: renderNat m) ++ '.' :: renderNat p)).length).drop 1
          = (renderNat M ++ '.' :: renderNat m) ++ '.' :: renderNat p := by
        rw [List.take_left]
        rfl
      have hpreRel : (('v' :: ((renderNat M ++ '.' :: renderNat m) ++ '.' :: renderNat p))
            ++ '-' :: (c0 :: pre')).drop
            (('v' :: ((renderNat M ++ '.' :: renderNat m) ++ '.' :: renderNat p)).length + 1)
          = c0 :: pre' := by
        rw [show ('v' :: ((renderNat M ++ '.' :: renderNat m) ++ '.' :: renderNat p))
              ++ '-' :: (c0 :: pre')
            = (('v' :: ((renderNat M ++ '.' :: renderNat m) ++ '.' :: renderNat p))
              ++ ['-']) ++ (c0 :: pre') from by simp]
        rw [show ('v' :: ((renderNat M ++ '.' :: renderNat m) ++ '.' :: renderNat p)).length + 1
            = (('v' :: ((renderNat M ++ '.' :: renderNat m) ++ '.' :: renderNat p))
              ++ ['-']).length from by simp; omega]
        exact List.drop_left _ _
      have hnew : New M m p [PreRelease (c0 :: pre')] = (⟨M, m, p, c0 :: pre'⟩, none) := by
        simp only [New, applyOpts, List.foldl_cons, List.foldl_nil, PreRelease]
        rw [if_pos]
        rw [hs]
        exact hIV
      simp only [Parse, hIV, if_true, hidx, hfields, hpreRel, splitOn_fields,
        parseUint_renderNat hM, parseUint_renderNat hm, parseUint_renderNat hp, hnew]

/-! ### The order induced by Compare. -/

theorem strLt_irrefl (s : Str) : strLt s s = false := by
  induction s with
  | nil => rfl
  | cons a as ih => simp [strLt, ih]

theorem strLt_asymm : ∀ (a b : Str), strLt a b = true → strLt b a = false := by
  intro a
  induction a with
  | nil =>
      intro b h
      cases b with
      | nil => exact absurd h (by decide)
      | cons c bs => rfl
  | cons x xs ih =>
      intro b h
      cases b with
      | nil => simp [strLt] at h
      | cons y ys =>
          rw [Bool.eq_false_iff]
          intro hba
          simp only [strLt, Bool.or_eq_true, Bool.and_eq_true, decide_eq_true_eq] at h hba
          rcases h with h | ⟨he, hxs⟩
          · rcases hba with hb | ⟨hbe, -⟩ <;> omega
          · rcases hba with hb | ⟨hbe, hys⟩
            · omega
            · have := ih ys hxs
              rw [this] at hys
              exact Bool.false_ne_true hys

theorem strLt_eq_of_not_lt : ∀ (a b : Str), strLt a b = false → strLt b a = false → a = b := by
  intro a
  induction a with
  | nil =>
      intro b h1 _
      cases b with
      | nil => rfl
      | cons c bs => simp [strLt] at h1
  | cons x xs ih =>
      intro b h1 h2
      cases b with
      | nil => simp [strLt] at h2
      | cons y ys =>
          simp only [strLt, Bool.or_eq_false_iff, Bool.and_eq_false_iff,
            decide_eq_false_iff_not] at h1 h2
          obtain ⟨h1a, h1b⟩ := h1
          obtain ⟨h2a, h2b⟩ := h2
          have hxy : x.toNat = y.toNat := by omega
          have hx : x = y := char_toNat_inj hxy
          subst hx
          have e1 : strLt xs ys = false := by
            rcases h1b with h | h
            · exact absurd rfl h
            · exact h
          have e2 : strLt ys xs = false := by
            rcases h2b with h | h
            · exact absurd rfl h
            · exact h
          rw [ih ys e1 e2]

theorem strLt_trans : ∀ (a b c : Str), strLt a b = true → strLt b c = true →
    strLt a c = true := by
  intro a
  induction a with
  | nil =>
      intro b c h1 h2
      cases c with
      | nil =>
          cases b with
          | nil => exact h1
          | cons y ys => simp [strLt] at h2
      | cons z zs => simp [strLt]
  | cons x xs ih =>
      intro b c h1 h2
      cases b with
      | nil => simp [strLt] at h1
      | cons y ys =>
          cases c with
          | nil => simp [strLt] at h2
          | cons z zs =>
              simp only [strLt, Bool.or_eq_true, Bool.and_eq_true, decide_eq_true_eq]
                at h1 h2 ⊢
              rcases h1 with h1 | ⟨h1e, h1t⟩
              · rcases h2 with h2 | ⟨h2e, h2t⟩
                · left; omega
                · left; omega
              · rcases h2 with h2 | ⟨h2e, h2t⟩
                · left; omega
                · right; exact ⟨by omega, ih ys zs h1t h2t⟩

theorem compare_trichotomy (v w : Version) :
    v.compare w = -1 ∨ v.compare w = 0 ∨ v.compare w = 1 := by
  unfold Version.compare
  split_ifs <;> norm_num

theorem compare_neg_one_iff (v w : Version) :
    v.compare w = -1 ↔
      (v.major < w.major ∨ (v.major = w.major ∧
        (v.minor < w.minor ∨ (v.minor = w.minor ∧
          (v.patch < w.patch ∨ (v.patch = w.patch ∧
            strLt v.preRelease w.preRelease = true)))))) := by
  unfold Version.compare
  split_ifs with h1 h2 h3 h4 h5 h6 h7 h8
  · exact iff_of_true rfl (Or.inl h1)
  · exact iff_of_false (by norm_num) (by rintro (h | ⟨e, -⟩) <;> omega)
  · exact iff_of_true rfl (Or.inr ⟨by omega, Or.inl h3⟩)
  · exact iff_of_false (by norm_num) (by rintro (h | ⟨e, h | ⟨e2, -⟩⟩) <;> omega)
  · exact iff_of_true rfl (Or.inr ⟨by omega, Or.inr ⟨by omega, Or.inl h5⟩⟩)
  · exact iff_of_false (by norm_num)
      (by rintro (h | ⟨e, h | ⟨e2, h | ⟨e3, -⟩⟩⟩) <;> omega)
  · exact iff_of_true rfl
      (Or.inr ⟨by omega, Or.inr ⟨by omega, Or.inr ⟨by omega, h7⟩⟩⟩)
  · refine iff_of_false (by norm_num) ?_
    rintro (h | ⟨e, h | ⟨e2, h | ⟨e3, hS⟩⟩⟩)
    · omega
    · omega
    · omega
    · exact h7 hS
  · refine iff_of_false (by norm_num) ?_
    rintro (h | ⟨e, h | ⟨e2, h | ⟨e3, hS⟩⟩⟩)
    · omega
    · omega
    · omega
    · exact h7 hS

theorem compare_one_iff (v w : Version) :
    v.compare w = 1 ↔
      (w.major < v.major ∨ (w.major = v.major ∧
        (w.minor < v.minor ∨ (w.minor = v.minor ∧
          (w.patch < v.patch ∨ (w.patch = v.patch ∧
            strLt w.preRelease v.preRelease = true)))))) := by
  unfold Version.compare
  split_ifs with h1 h2 h3 h4 h5 h6 h7 h8
  · exact iff_of_false (by norm_num) (by rintro (h | ⟨e, -⟩) <;> omega)
  · exact iff_of_true rfl (Or.inl h2)
  · exact iff_of_false (by norm_num) (by rintro (h | ⟨e, h | ⟨e2, -⟩⟩) <;> omega)
  · exact iff_of_true rfl (Or.inr ⟨by omega, Or.inl h4⟩)
  · exact iff_of_false (by norm_num)
      (by rintro (h | ⟨e, h | ⟨e2, h | ⟨e3, -⟩⟩⟩) <;> omega)
  · exact iff_of_true rfl (Or.inr ⟨by omega, Or.inr ⟨by omega, Or.inl h6⟩⟩)
  · refine iff_of_false (by norm_num) ?_
    rintro (h | ⟨e, h | ⟨e2, h | ⟨e3, hS⟩⟩⟩)
    · omega
    · omega
    · omega
    · rw [strLt_asymm _ _ h7] at hS
      exact Bool.false_ne_true hS
  · exact iff_of_true rfl
      (Or.inr ⟨by omega, Or.inr ⟨by omega, Or.inr ⟨by omega, h8⟩⟩⟩)
  · refine iff_of_false (by norm_num) ?_
    rintro (h | ⟨e, h | ⟨e2, h | ⟨e3, hS⟩⟩⟩)
    · omega
    · omega
    · omega
    · exact h8 hS

theorem compare_zero_iff (v w : Version) :
    v.compare w = 0 ↔
      v.major = w.major ∧ v.minor = w.minor ∧ v.patch = w.patch ∧
        v.preRelease = w.preRelease := by
  unfold Version.compare
  split_ifs with h1 h2 h3 h4 h5 h6 h7 h8
  · exact iff_of_false (by norm_num) (by rintro ⟨e1, -, -, -⟩; omega)
  · exact iff_of_false (by norm_num) (by rintro ⟨e1, -, -, -⟩; omega)
  · exact iff_of_false (by norm_num) (by rintro ⟨-, e2, -, -⟩; omega)
  · exact iff_of_false (by norm_num) (by rintro ⟨-, e2, -, -⟩; omega)
  · exact iff_of_false (by norm_num) (by rintro ⟨-, -, e3, -⟩; omega)
  · exact iff_of_false (by norm_num) (by rintro ⟨-, -, e3, -⟩; omega)
  · refine iff_of_false (by norm_num) ?_
    rintro ⟨-, -, -, e4⟩
    rw [e4, strLt_irrefl] at h7
    exact Bool.false_ne_true h7
  · refine iff_of_false (by norm_num) ?_
    rintro ⟨-, -, -, e4⟩
    rw [e4, strLt_irrefl] at h8
    exact Bool.false_ne_true h8
  · refine iff_of_true rfl ⟨by omega, by omega, by omega, ?_⟩
    exact strLt_eq_of_not_lt _ _ (Bool.eq_false_iff.mpr h7) (Bool.eq_false_iff.mpr h8)

theorem compare_antisym (v w : Version) : v.compare w = -(w.compare v) := by
  rcases compare_trichotomy v w with h | h | h
  · rw [h, (compare_one_iff w v).mpr ((compare_neg_one_iff v w).mp h)]
  · rw [h]
    obtain ⟨e1, e2, e3, e4⟩ := (compare_zero_iff v w).mp h
    rw [(compare_zero_iff w v).mpr ⟨e1.symm, e2.symm, e3.symm, e4.symm⟩]
    norm_num
  · rw [h, (compare_neg_one_iff w v).mpr ((compare_one_iff v w).mp h)]
    norm_num

theorem compare_self (v : Version) : v.compare v = 0 :=
  (compare_zero_iff v v).mpr ⟨rfl, rfl, rfl, rfl⟩

theorem compare_trans_neg_one {v w u : Version}
    (h1 : v.compare w = -1) (h2 : w.compare u = -1) : v.compare u = -1 := by
  rw [compare_neg_one_iff] at h1 h2 ⊢
  rcases h1 with h1 | ⟨e1, h1⟩
  · rcases h2 with h2 | ⟨f1, h2⟩
    · exact Or.inl (by omega)
    · exact Or.inl (by omega)
  · rcases h2 with h2 | ⟨f1, h2⟩
    · exact Or.inl (by omega)
    · refine Or.inr ⟨by omega, ?_⟩
      rcases h1 with h1 | ⟨e2, h1⟩
      · rcases h2 with h2 | ⟨f2, h2⟩
        · exact Or.inl (by omega)
        · exact Or.inl (by omega)
      · rcases h2 with h2 | ⟨f2, h2⟩
        · exact Or.inl (by omega)
        · refine Or.inr ⟨by omega, ?_⟩
          rcases h1 with h1 | ⟨e3, h1⟩
          · rcases h2 with h2 | ⟨f3, h2⟩
            · exact Or.inl (by omega)
            · exact Or.inl (by omega)
          · rcases h2 with h2 | ⟨f3, h2⟩
            · exact Or.inl (by omega)
            · refine Or.inr ⟨by omega, ?_⟩
              exact strLt_trans _ _ _ h1 h2

/-! ### Supporting lemmas for the claims about New, Bump and Parse. -/

theorem new_nil_opts (M m p : Nat) : New M m p [] = (⟨M, m, p, []⟩, none) := by
  unfold New
  simp only [applyOpts, List.foldl_nil]
  rw [if_pos (isValid_string_nopre M m p)]

theorem new_eq_ok {M m p : Nat} {opts : List VOption} {v : Version}
    (h : New M m p opts = (v, none)) :
    IsValid v.string = true ∧ v = applyOpts opts ⟨M, m, p, []⟩ := by
  simp only [New] at h
  split at h
  · obtain ⟨h1, -⟩ := Prod.mk.injEq .. ▸ h
    subst h1
    exact ⟨by assumption, rfl⟩
  · exact absurd (congrArg Prod.snd h) (by simp)

theorem parseUint_error_shape {s : Str} {e : GoErr} (h : parseUint s = .error e) :
    ∃ kind, e = .numError s kind := by
  unfold parseUint at h
  split_ifs at h
  · injection h with h2
    exact ⟨.errSyn, h2.symm⟩
  · injection h with h2
    exact ⟨.errRange, h2.symm⟩
  · injection h with h2
    exact ⟨.errSyn, h2.symm⟩

theorem errorsIs_wrap_numError (c num : Str) (k : NumErrKind) :
    errorsIs (.wrap c (.numError num k)) .invalidVersion = false := by
  simp [errorsIs]

/-! ### The claims. -/

/-- C1: the claim states that IsValid accepts exactly the dot-separated
grammar, rejecting in particular non-alphanumeric pre-release segments such
as "v1.0.0-abc_def".  The code disagrees: the dots of versionPattern are not
escaped, so each matches any character except newline.  Evaluating the
embedded IsValid shows it accepts "v1.0.0-abc_def" (the underscore is
consumed by an unescaped dot) and even "v1x2y3", while the examples the
claim gets right ("v01.0.0", "v1.0.0-.abc", "", "1.2.3") are still
rejected. -/
theorem c1_isValid_unescaped_dots :
    IsValid ['v', '1', '.', '0', '.', '0', '-', 'a', 'b', 'c', '_', 'd', 'e', 'f'] = true ∧
    IsValid ['v', '1', 'x', '2', 'y', '3'] = true ∧
    IsValid ['v', '0', '1', '.', '0', '.', '0'] = false ∧
    IsValid ['v', '1', '.', '0', '.', '0', '-', '.', 'a'] = false ∧
    IsValid [] = false ∧
    IsValid ['1', '.', '2', '.', '3'] = false := by
  decide

/-- C2: the claim states Parse never panics because a string passing IsValid
always splits into at least three dot-separated numeric fields.  The code
disagrees: "v1-2-3" passes IsValid (unescaped dots match the hyphens), the
part before the first "-" is just "1", strings.Split yields the single
segment "1", and after ParseUint succeeds on it the access ss[1] is out of
range — an uncatchable runtime panic, modelled as `.panicked`. -/
theorem c2_parse_panics_on_valid_input :
    IsValid ['v', '1', '-', '2', '-', '3'] = true ∧
    splitOn '.' ((List.take 2 ['v', '1', '-', '2', '-', '3']).drop 1) = [['1']] ∧
    Parse ['v', '1', '-', '2', '-', '3'] = .panicked := by
  decide

/-- C3: round-trip.  Whenever New succeeds with a version `v` (whose fields
are representable 64-bit values, as every Go uint is), Parse of v.String()
succeeds and returns a version that compares equal to `v` and agrees with it
on all four accessors. -/
theorem c3_new_parse_roundTrip (M m p : Nat) (opts : List VOption) (v : Version)
    (hM : v.major < uintMod) (hm : v.minor < uintMod) (hp : v.patch < uintMod)
    (h : New M m p opts = (v, none)) :
    ∃ w, Parse v.string = .ret (w, none) ∧ v.compare w = 0 ∧
      w.Major = v.Major ∧ w.Minor = v.Minor ∧ w.Patch = v.Patch ∧
      w.PreRelease = v.PreRelease := by
  have hIV : IsValid v.string = true := (new_eq_ok h).1
  exact ⟨v, parse_string_of_isValid hM hm hp hIV, compare_self v, rfl, rfl, rfl, rfl⟩

theorem c3_new_parse_roundTrip_witness :
    ∃ w, Parse (Version.string ⟨1, 2, 3, ['A', 'b', 'c']⟩) = .ret (w, none) ∧
      Version.compare ⟨1, 2, 3, ['A', 'b', 'c']⟩ w = 0 ∧
      w.Major = Version.Major ⟨1, 2, 3, ['A', 'b', 'c']⟩ ∧
      w.Minor = Version.Minor ⟨1, 2, 3, ['A', 'b', 'c']⟩ ∧
      w.Patch = Version.Patch ⟨1, 2, 3, ['A', 'b', 'c']⟩ ∧
      w.PreRelease = Version.PreRelease ⟨1, 2, 3, ['A', 'b', 'c']⟩ :=
  c3_new_parse_roundTrip 1 2 3 [PreRelease ['A', 'b', 'c']] ⟨1, 2, 3, ['A', 'b', 'c']⟩
    (by decide) (by decide) (by decide) (by decide)

/-- C4: Compare returns -1, 0 or 1; it returns 0 exactly when all four
fields agree; -1 exactly on strict lexicographic precedence (major, minor,
patch numerically, then preRelease as a raw string); it is antisymmetric,
reflexive as zero, and transitive. -/
theorem c4_compare_full_order (v w u : Version) :
    (v.compare w = -1 ∨ v.compare w = 0 ∨ v.compare w = 1) ∧
    (v.compare w = 0 ↔
      v.major = w.major ∧ v.minor = w.minor ∧ v.patch = w.patch ∧
        v.preRelease = w.preRelease) ∧
    (v.compare w = -1 ↔
      (v.major < w.major ∨ (v.major = w.major ∧
        (v.minor < w.minor ∨ (v.minor = w.minor ∧
          (v.patch < w.patch ∨ (v.patch = w.patch ∧
            strLt v.preRelease w.preRelease = true))))))) ∧
    (v.compare w = -(w.compare v)) ∧
    (v.compare v = 0) ∧
    (v.compare w = -1 → w.compare u = -1 → v.compare u = -1) :=
  ⟨compare_trichotomy v w, compare_zero_iff v w, compare_neg_one_iff v w,
    compare_antisym v w, compare_self v,
    fun h1 h2 => compare_trans_neg_one h1 h2⟩

theorem c4_compare_full_order_witness :
    Version.compare ⟨1, 0, 0, []⟩ ⟨3, 0, 0, []⟩ = -1 :=
  (c4_compare_full_order ⟨1, 0, 0, []⟩ ⟨2, 0, 0, []⟩ ⟨3, 0, 0, []⟩).2.2.2.2.2
    (by decide) (by decide)

/-- C5 counterexample: the claim states Bump(Major, opts...) returns the
result of New(major+1, 0, 0, opts...).  When New fails, Bump does not return
New's result: it wraps the error as `fmt.Errorf("New: %w", err)`.  With the
invalid pre-release "!" the two results differ. -/
theorem c5_bump_error_differs_from_new :
    Version.bump ⟨0, 0, 0, []⟩ Major [PreRelease ['!']] ≠ New 1 0 0 [PreRelease ['!']] := by
  decide

/-- C5 as amended: Bump(Major/Minor/Patch) returns New's result on success
and, on failure, the zero Version with New's error wrapped in the "New"
context (the `wrapNew` shape); `+1` is Go uint addition, hence modular;
any field tag outside Major/Minor/Patch (including the zero Field) yields
the zero Version and ErrInvalidField. -/
theorem c5_bump_dispatch (v : Version) (opts : List VOption) (f : VField)
    (h1 : f ≠ Major) (h2 : f ≠ Minor) (h3 : f ≠ Patch) :
    v.bump Major opts = wrapNew (New ((v.major + 1) % uintMod) 0 0 opts) ∧
    v.bump Minor opts = wrapNew (New v.major ((v.minor + 1) % uintMod) 0 opts) ∧
    v.bump Patch opts = wrapNew (New v.major v.minor ((v.patch + 1) % uintMod) opts) ∧
    v.bump f opts = (⟨0, 0, 0, []⟩, some .invalidField) := by
  refine ⟨?_, ?_, ?_, ?_⟩
  · unfold Version.bump
    rw [if_pos rfl]
    rcases New ((v.major + 1) % uintMod) 0 0 opts with ⟨v1, _ | e⟩ <;> rfl
  · unfold Version.bump
    rw [if_neg (by decide), if_pos rfl]
    rcases New v.major ((v.minor + 1) % uintMod) 0 opts with ⟨v1, _ | e⟩ <;> rfl
  · unfold Version.bump
    rw [if_neg (by decide), if_neg (by decide), if_pos rfl]
    rcases New v.major v.minor ((v.patch + 1) % uintMod) opts with ⟨v1, _ | e⟩ <;> rfl
  · unfold Version.bump
    rw [if_neg h1, if_neg h2, if_neg h3]

theorem c5_bump_dispatch_witness :
    Version.bump ⟨0, 0, 0, []⟩ Major [] = wrapNew (New 1 0 0 []) ∧
    Version.bump ⟨0, 0, 0, []⟩ Minor [] = wrapNew (New 0 1 0 []) ∧
    Version.bump ⟨0, 0, 0, []⟩ Patch [] = wrapNew (New 0 0 1 []) ∧
    Version.bump ⟨0, 0, 0, []⟩ 0 [] = (⟨0, 0, 0, []⟩, some .invalidField) :=
  c5_bump_dispatch ⟨0, 0, 0, []⟩ [] 0 (by decide) (by decide) (by decide)

/-- C6: New builds the candidate from the three numeric fields, applies the
options in order, renders the candidate and validates the rendering; it
returns the zero Version with ErrInvalidVersion exactly when the rendered
string fails IsValid, and otherwise the candidate with a nil error. -/
theorem c6_new_validates_rendered (M m p : Nat) (opts : List VOption) :
    New M m p opts =
      (if IsValid (Version.string (applyOpts opts ⟨M, m, p, []⟩))
        then (applyOpts opts ⟨M, m, p, []⟩, none)
        else (⟨0, 0, 0, []⟩, some GoErr.invalidVersion)) ∧
    ((New M m p opts).2 = some GoErr.invalidVersion ↔
      IsValid (Version.string (applyOpts opts ⟨M, m, p, []⟩)) = false) := by
  have hfirst : New M m p opts =
      (if IsValid (Version.string (applyOpts opts ⟨M, m, p, []⟩))
        then (applyOpts opts ⟨M, m, p, []⟩, none)
        else (⟨0, 0, 0, []⟩, some GoErr.invalidVersion)) := rfl
  refine ⟨hfirst, ?_⟩
  rw [hfirst]
  by_cases hc : IsValid (Version.string (applyOpts opts ⟨M, m, p, []⟩)) = true
  · rw [if_pos hc]
    simp [hc]
  · rw [if_neg hc]
    simp [Bool.eq_false_iff.mpr hc]

/-- C7: for all representable field values, New with no options succeeds:
every decimal rendering of a 64-bit unsigned value is accepted by the
grammar, so no range check beyond the word width exists. -/
theorem c7_new_total_on_uints (M m p : Nat)
    (_hM : M < uintMod) (_hm : m < uintMod) (_hp : p < uintMod) :
    New M m p [] = (⟨M, m, p, []⟩, none) ∧
    IsValid (Version.string ⟨M, m, p, []⟩) = true :=
  ⟨new_nil_opts M m p, isValid_string_nopre M m p⟩

theorem c7_new_total_on_uints_witness :
    New 1 2 3 [] = (⟨1, 2, 3, []⟩, none) ∧
    IsValid (Version.string ⟨1, 2, 3, []⟩) = true :=
  c7_new_total_on_uints 1 2 3 (by decide) (by decide) (by decide)

/-- C8 counterexample: the claim states the numeric-conversion error carries
context identifying which stage (major, minor or patch) failed.  It does
not: all three stages wrap with the same "strconv.ParseUint" prefix, so a
major-field overflow and a minor-field overflow of the same digit string
produce identical error values — no observer of the returned error can tell
the stages apart. -/
theorem c8_no_stage_context :
    Parse overflowMajorStr = Parse overflowMinorStr ∧
    Parse overflowMajorStr
      = .ret (⟨0, 0, 0, []⟩,
          some (.wrap ctxParseUint (.numError overflowDigits .errRange))) := by
  decide

/-- C8 as amended: an error returned by Parse that is neither
ErrInvalidVersion nor a "New"-context wrap is a numeric-conversion failure:
it wraps the underlying strconv.NumError in the fixed context
"strconv.ParseUint" — the same for all three stages, identifying none — and
it does not match ErrInvalidVersion under errors.Is. -/
theorem c8_parse_wraps_numeric_failure (s : Str) (v' : Version) (e : GoErr)
    (h : Parse s = .ret (v', some e))
    (hnv : e ≠ .invalidVersion) (hnw : isWrapNew e = false) :
    ∃ num kind, e = .wrap ctxParseUint (.numError num kind) ∧
      errorsIs e .invalidVersion = false := by
  simp only [Parse] at h
  split_ifs at h with hIV
  · split at h
    · exact PanicOr.noConfusion h
    · rename_i s0 tl0 hsp0
      split at h
      · rename_i e0 heq0
        injection h with h1
        obtain ⟨-, h2⟩ := Prod.mk.injEq .. ▸ h1
        injection h2 with h3
        obtain ⟨k0, hk0⟩ := parseUint_error_shape heq0
        have he : e = .wrap ctxParseUint (.numError s0 k0) := by rw [← h3, hk0]
        exact ⟨s0, k0, he, by rw [he]; exact errorsIs_wrap_numError _ _ _⟩
      · split at h
        · exact PanicOr.noConfusion h
        · rename_i s1 tl1
          split at h
          · rename_i e1 heq1
            injection h with h1
            obtain ⟨-, h2⟩ := Prod.mk.injEq .. ▸ h1
            injection h2 with h3
            obtain ⟨k1, hk1⟩ := parseUint_error_shape heq1
            have he : e = .wrap ctxParseUint (.numError s1 k1) := by rw [← h3, hk1]
            exact ⟨s1, k1, he, by rw [he]; exact errorsIs_wrap_numError _ _ _⟩
          · split at h
            · exact PanicOr.noConfusion h
            · rename_i s2 tl2
              split at h
              · rename_i e2 heq2
                injection h with h1
                obtain ⟨-, h2⟩ := Prod.mk.injEq .. ▸ h1
                injection h2 with h3
                obtain ⟨k2, hk2⟩ := parseUint_error_shape heq2
                have he : e = .wrap ctxParseUint (.numError s2 k2) := by rw [← h3, hk2]
                exact ⟨s2, k2, he, by rw [he]; exact errorsIs_wrap_numError _ _ _⟩
              · split at h
                · rename_i v3 e3 heq3
                  injection h with h1
                  obtain ⟨-, h2⟩ := Prod.mk.injEq .. ▸ h1
                  injection h2 with h3
                  rw [← h3] at hnw
                  exact absurd hnw (by simp [isWrapNew])
                · rename_i v3 heq3
                  injection h with h1
                  obtain ⟨-, h2⟩ := Prod.mk.injEq .. ▸ h1
                  exact Option.noConfusion h2
  · injection h with h1
    obtain ⟨-, h2⟩ := Prod.mk.injEq .. ▸ h1
    injection h2 with h3
    exact absurd h3.symm hnv

theorem c8_parse_wraps_numeric_failure_witness :
    ∃ num kind, GoErr.wrap ctxParseUint (.numError overflowDigits .errRange)
        = .wrap ctxParseUint (.numError num kind) ∧
      errorsIs (GoErr.wrap ctxParseUint (.numError overflowDigits .errRange))
          .invalidVersion = false :=
  c8_parse_wraps_numeric_failure overflowMajorStr ⟨0, 0, 0, []⟩
    (.wrap ctxParseUint (.numError overflowDigits .errRange))
    (by decide) (by decide) (by decide)

/-- C9: among two versions with identical numeric fields, the one without a
pre-release compares strictly less than the one with a (nonempty)
pre-release — the reverse of standard SemVer precedence, because Go's `<` on
strings makes the empty string least. -/
theorem c9_release_lt_preRelease (v w : Version)
    (h1 : v.major = w.major) (h2 : v.minor = w.minor) (h3 : v.patch = w.patch)
    (h4 : v.preRelease = []) (h5 : w.preRelease ≠ []) :
    v.compare w = -1 := by
  rw [compare_neg_one_iff]
  refine Or.inr ⟨h1, Or.inr ⟨h2, Or.inr ⟨h3, ?_⟩⟩⟩
  rw [h4]
  cases hw : w.preRelease with
  | nil => exact absurd hw h5
  | cons c cs => rfl

theorem c9_release_lt_preRelease_witness :
    Version.compare ⟨1, 2, 3, []⟩ ⟨1, 2, 3, ['a']⟩ = -1 :=
  c9_release_lt_preRelease ⟨1, 2, 3, []⟩ ⟨1, 2, 3, ['a']⟩ rfl rfl rfl rfl (by decide)

/-- C10: Bump's `+1` is Go uint addition, so it is modular in the word
width: bumping Major at the maximum representable value wraps to v0.0.0 with
a nil error instead of reporting overflow, and Minor and Patch wrap the same
way at their maxima. -/
theorem c10_bump_wraps_at_max (M m p : Nat) (pre : Str) :
    Version.bump ⟨uintMod - 1, m, p, pre⟩ Major [] = (⟨0, 0, 0, []⟩, none) ∧
    Version.bump ⟨M, uintMod - 1, p, pre⟩ Minor [] = (⟨M, 0, 0, []⟩, none) ∧
    Version.bump ⟨M, m, uintMod - 1, pre⟩ Patch [] = (⟨M, m, 0, []⟩, none) := by
  have hmod : (uintMod - 1 + 1) % uintMod = 0 := by
    unfold uintMod
    omega
  refine ⟨?_, ?_, ?_⟩
  · unfold Version.bump
    rw [if_pos rfl]
    have h1 : ((⟨uintMod - 1, m, p, pre⟩ : Version).major + 1) % uintMod = 0 := hmod
    rw [h1, new_nil_opts]
  · unfold Version.bump
    rw [if_neg (by decide), if_pos rfl]
    have h1 : ((⟨M, uintMod - 1, p, pre⟩ : Version).minor + 1) % uintMod = 0 := hmod
    rw [h1, new_nil_opts]
  · unfold Version.bump
    rw [if_neg (by decide), if_neg (by decide), if_pos rfl]
    have h1 : ((⟨M, m, uintMod - 1, pre⟩ : Version).patch + 1) % uintMod = 0 := hmod
    rw [h1, new_nil_opts]
